import Mathlib

/-!
Verification development for the miqro-lang lexical analyser.

The development shallowly embeds the two source files of the repository:
`src/compiler/backend/miqro_lexer/unescape.rs` (the escape decoder) and
`src/compiler/backend/miqro_lexer/scanner.rs` (the scanner).  Strings are
modelled as `List Char` (sequences of Unicode scalar values), the scanner
state as an explicit structure, and the `Option::unwrap` panics of the Rust
code as `Option.none` results.

The Rust loops consume the cursor one scalar value per iteration; to keep
every definition kernel-computable they are embedded as structural
recursions, either over the cursor's remaining scalar values (passed as an
explicit list that always equals the `rest` field of the threaded state) or
over a fuel bound that provably always suffices.
-/

namespace Miqro

/-! ## Escape decoder (`unescape.rs`) -/

/-- Error enumeration of `unescape.rs` (`enum UnescapeError`). -/
inductive UnescapeError where
  | OnlyOneSlashError
  | IllegalEscape
  | EmptyUnicode
  | UnclosedUnicode
  | IllegalUnicode
  | TooLongUnicode
  | ValueOutOfUnicode
  | IllegalSurrogate
  | InvalidCharInUnicode
  | TooShortEscape
  | InvalidCharInHex
  | ValueOutOfHex
deriving DecidableEq

/-- Display strings of `impl Display for UnescapeError`. -/
def errMsg : UnescapeError → String
  | .OnlyOneSlashError => "Only one slash found, expected an escape sequence"
  | .IllegalEscape => "Illegal escape sequence"
  | .EmptyUnicode => "Empty unicode escape sequence"
  | .UnclosedUnicode => "Unclosed unicode escape sequence"
  | .IllegalUnicode => "Illegal unicode escape sequence"
  | .TooLongUnicode => "Too long unicode escape sequence"
  | .ValueOutOfUnicode => "Value out of unicode range"
  | .IllegalSurrogate => "Illegal surrogate pairs in unicode escape sequence"
  | .InvalidCharInUnicode => "Invalid character in unicode escape sequence"
  | .TooShortEscape => "Too short escape sequence"
  | .InvalidCharInHex => "Invalid character in hexadecimal escape sequence"
  | .ValueOutOfHex => "Value out of hexadecimal range"

/-- Decidable equality of decoder results, for evaluating the embedding on
concrete inputs. -/
instance {ε α : Type} [DecidableEq ε] [DecidableEq α] : DecidableEq (Except ε α) := fun x y =>
  match x, y with
  | .ok a, .ok b => if h : a = b then .isTrue (by rw [h]) else .isFalse (by simp [h])
  | .error e, .error f => if h : e = f then .isTrue (by rw [h]) else .isFalse (by simp [h])
  | .ok _, .error _ => .isFalse (by simp)
  | .error _, .ok _ => .isFalse (by simp)

/-- Rust `char::is_ascii_hexdigit`. -/
def isAsciiHexDigit (c : Char) : Bool :=
  c.isDigit || ('a' ≤ c && c ≤ 'f') || ('A' ≤ c && c ≤ 'F')

/-- Rust `char::to_digit(16).unwrap()` on an ASCII hex digit (0 elsewhere,
but it is only ever applied to hex digits, mirroring the `unwrap`). -/
def hexDigit (c : Char) : Nat :=
  if c.isDigit then c.toNat - 48
  else if 'a' ≤ c && c ≤ 'f' then c.toNat - 87
  else if 'A' ≤ c && c ≤ 'F' then c.toNat - 55
  else 0

/-- Rust `char::to_digit(16)`. -/
def hexDigitOpt (c : Char) : Option Nat :=
  if isAsciiHexDigit c then some (hexDigit c) else none

/-- Rust `char::from_u32`: `some` exactly on valid Unicode scalar values. -/
def charFromU32 (v : Nat) : Option Char :=
  if v.isValidChar then some (Char.ofNat v) else none

/-- The digit-consuming loop of the `'u'` arm of `unescape`
(`while let Some(x) = que.pop_front() { ... }`).  On success it returns the
decoded scalar value together with the queue remaining after the closing
brace; falling off the end of the queue returns no character, as the Rust
loop then simply ends with nothing pushed.  The accumulator mirrors the
`u32` arithmetic `(value << 4) | to_digit` with an explicit wrap at
`2 ^ 32`. -/
def uLoop (digits : Nat) (value : Nat) (que : List Char) :
    Except UnescapeError (Option Char × List Char) :=
  match que with
  | [] => .ok (none, [])
  | x :: rest =>
    if digits > 6 then .error .TooLongUnicode
    else if x = '\x7d' then
      if digits = 0 then .error .EmptyUnicode
      else if value > 0x10FFFF then .error .ValueOutOfUnicode
      else
        match charFromU32 value with
        | none => .error .IllegalSurrogate
        | some ch => .ok (some ch, rest)
    else if isAsciiHexDigit x then
      uLoop (digits + 1) (((value <<< 4) % 4294967296) ||| hexDigit x) rest
    else .error .InvalidCharInUnicode

/-- The value accumulated by the digit loop of the `'u'` arm over a run of
hex digits: a left fold of the source's step `(value << 4) | to_digit`. -/
def hexAcc (value : Nat) (ds : List Char) : Nat :=
  ds.foldl (fun v c => ((v <<< 4) % 4294967296) ||| hexDigit c) value

/-- The `'u'` arm of the escape dispatch: the closing-brace lookahead over the
whole remaining queue, the opening-brace check, then the digit loop. -/
def uEscape (que : List Char) : Except UnescapeError (Option Char × List Char) :=
  if que.isEmpty || !(que.contains '\x7d') then .error .UnclosedUnicode
  else
    match que with
    | [] => .error .UnclosedUnicode -- unreachable: the guard above requires a nonempty queue
    | b :: rest => if b = '\x7b' then uLoop 0 0 rest else .error .IllegalUnicode

/-- One escape dispatch of the main loop of `unescape` (the `match esc`
after popping the backslash and its successor): the scalar values to append
to the output together with the queue remaining afterwards, or the first
error. -/
def escDecode (esc : Char) (rest2 : List Char) :
    Except UnescapeError (List Char × List Char) :=
  if esc = 'b' then .ok ([Char.ofNat 8], rest2)
  else if esc = 'r' then .ok (['\r'], rest2)
  else if esc = 'n' then .ok (['\n'], rest2)
  else if esc = 't' then .ok (['\t'], rest2)
  else if esc = '\'' then .ok (['\''], rest2)
  else if esc = '\\' then .ok (['\\'], rest2)
  else if esc = 'u' then
    match uEscape rest2 with
    | .error e => .error e
    | .ok (och, rest3) => .ok (och.toList, rest3)
  else if esc = 'x' then
    match rest2 with
    | [] => .error .TooShortEscape
    | hc :: rest3 =>
      match hexDigitOpt hc with
      | none => .error .InvalidCharInHex
      | some hi =>
        match rest3 with
        | [] => .error .TooShortEscape
        | lc :: rest4 =>
          match hexDigitOpt lc with
          | none => .error .InvalidCharInHex
          | some lo =>
            if hi * 16 + lo > 0x7f then .error .ValueOutOfHex
            else .ok ([Char.ofNat (hi * 16 + lo)], rest4)
  else .error .IllegalEscape

/-- The main loop of `unescape` (`while let Some(c) = que.pop_front()`), with
`res` the accumulated output.  Every iteration consumes at least one queue
element, so a fuel of the initial queue length always suffices; the
fuel-exhausted arm (unreachable from `unescapeAux`) returns the accumulator
like the loop's own exit. -/
def unescapeGo : Nat → List Char → List Char → Except UnescapeError (List Char)
  | _, [], res => .ok res
  | 0, _ :: _, res => .ok res
  | fuel + 1, c :: rest, res =>
    if c ≠ '\\' then unescapeGo fuel rest (res ++ [c])
    else
      match rest with
      | [] => .error .OnlyOneSlashError
      | esc :: rest2 =>
        match escDecode esc rest2 with
        | .error e => .error e
        | .ok (out, rest3) => unescapeGo fuel rest3 (res ++ out)

/-- The `while` loop of `unescape`, entered with sufficient fuel. -/
def unescapeAux (que : List Char) (res : List Char) :
    Except UnescapeError (List Char) :=
  unescapeGo que.length que res

/-- Rust `unescape`: decode the raw interior text of a quoted literal. -/
def unescape (input : List Char) : Except UnescapeError (List Char) :=
  if input = [] then .ok [] else unescapeAux input []

/-! ## Scanner (`scanner.rs`) -/

/-- Token kinds (`enum TokenType`). -/
inductive TokenType where
  | Id
  | IntLiteral
  | BoolLiteral
  | StringLiteral
  | CharLiteral
  | FloatLiteral
  | Keyword
  | Op
  | LParen
  | RParen
  | LBracket
  | RBracket
  | LBrace
  | RBrace
  | Error
  | Eof
deriving DecidableEq

/-- A produced lexeme (`struct Token`). -/
structure Token where
  ty : TokenType
  text : String
  line : Nat
  column : Nat
deriving DecidableEq

/-- Mutable scanner state (`struct Lexer`): the unconsumed scalar values, the
position counters and the last consumed scalar value (`current`). -/
structure LexState where
  rest : List Char
  line : Nat
  column : Nat
  current : Char
deriving DecidableEq

/-- Rust `Lexer::new`: cursor at the start, line 1, column 0. -/
def initLex (code : List Char) : LexState :=
  ⟨code, 1, 0, '\x00'⟩

/-- State change of `Iterator::next` for `Lexer` when a scalar value remains:
advance `column`, or on a newline advance `line` and reset `column`, and
record the consumed value in `current`.  On an exhausted cursor the state is
returned unchanged; this total helper is only used at call sites where the
Rust code has established that the cursor is not exhausted. -/
def consume (s : LexState) : LexState :=
  match s.rest with
  | [] => s
  | c :: cs =>
    if c = '\n' then ⟨cs, s.line + 1, 0, c⟩
    else ⟨cs, s.line, s.column + 1, c⟩

/-- Rust `Iterator::next` for `Lexer`, including its panic: the implementation
runs `self.current = c.unwrap()`, so a call on an exhausted cursor panics,
modelled as `none`. -/
def rnext (s : LexState) : Option (Char × LexState) :=
  match s.rest with
  | [] => none
  | c :: _ => some (c, consume s)

/-- Rust `lookahead`: next scalar value without consuming, `'\0'` at end. -/
def lookahead (s : LexState) : Char :=
  s.rest.headD '\x00'

/-- Rust `eof`: true iff no scalar values remain. -/
def eof (s : LexState) : Bool :=
  s.rest.isEmpty

/-- Rust `make_token`: stamp a token with the scanner's current position. -/
def mkToken (s : LexState) (ty : TokenType) (text : String) : Token :=
  ⟨ty, text, s.line, s.column⟩

/-- Rust `char::is_whitespace`: the Unicode `White_Space` property. -/
def rustIsWhitespace (c : Char) : Bool :=
  c ∈ ['\u0009', '\u000A', '\u000B', '\u000C', '\u000D', ' ',
       '\u0085', ' ', ' ', ' ', ' ', ' ',
       ' ', ' ', ' ', ' ', ' ', ' ',
       ' ', ' ', ' ', ' ', ' ', ' ',
       '　']

/-- Modelled from the spec: the external UAX #31 identifier classification
(`unicode_xid::UnicodeXID::is_xid_start`), which §6 of the specification
treats as a black-box service that is not part of this repository; modelled
faithfully on the ASCII range (`ID_Start` = the letters). -/
def isXidStart (c : Char) : Bool :=
  c.isAlpha

/-- Modelled from the spec: the external UAX #31 identifier classification
(`unicode_xid::UnicodeXID::is_xid_continue`), a black-box service that is not
part of this repository; modelled faithfully on the ASCII range
(`ID_Continue` = letters, digits and underscore). -/
def isXidContinue (c : Char) : Bool :=
  c.isAlpha || c.isDigit || c = '_'

/-- Rust `eat_until` (`while !f(self.lookahead()) && !self.eof()`), recursing
structurally on the cursor's remaining scalar values, passed explicitly and
always equal to `s.rest`. -/
def eatUntilGo (f : Char → Bool) : List Char → LexState → LexState
  | [], s => s
  | c :: cs, s => if !(f c) then eatUntilGo f cs (consume s) else s

/-- Rust `eat_until`: consume while the predicate rejects the lookahead and
the cursor is not exhausted. -/
def eatUntil (f : Char → Bool) (s : LexState) : LexState :=
  eatUntilGo f s.rest s

/-- The `while` loop of the block-comment arm of `next_token`
(`while !(self.eof() || self.curr() == '*' && self.lookahead() == '/')`),
recursing structurally on the cursor's remaining scalar values (always equal
to `s.rest`); the head of that list is the lookahead. -/
def blockSkipGo : List Char → LexState → LexState
  | [], s => s
  | c :: cs, s =>
    if s.current = '*' ∧ c = '/' then s else blockSkipGo cs (consume s)

/-- The block-comment skip loop entered on the scanner state. -/
def blockSkip (s : LexState) : LexState :=
  blockSkipGo s.rest s

/-- The accumulation loop of the quote arms of `next_token`
(`while self.lookahead() != quote && !self.eof()`), pushing consumed scalar
values; recursion is structural on the cursor's remaining scalar values
(always equal to `s.rest`). -/
def strBodyGo (q : Char) : List Char → List Char → LexState →
    List Char × LexState
  | [], content, s => (content, s)
  | c :: cs, content, s =>
    if c ≠ q then strBodyGo q cs (content ++ [c]) (consume s)
    else (content, s)

/-- The quoted-literal accumulation loop entered on the scanner state. -/
def strBody (q : Char) (content : List Char) (s : LexState) :
    List Char × LexState :=
  strBodyGo q s.rest content s

/-- The identifier loop of `next_token`: push the lookahead and consume while
it satisfies `is_xid_continue`; structural on the remaining scalar values
(always equal to `s.rest`). -/
def idLoopGo : List Char → List Char → LexState → List Char × LexState
  | [], id, s => (id, s)
  | c :: cs, id, s =>
    if isXidContinue c then idLoopGo cs (id ++ [c]) (consume s) else (id, s)

/-- The identifier loop entered on the scanner state. -/
def idLoop (id : List Char) (s : LexState) : List Char × LexState :=
  idLoopGo s.rest id s

/-- A greedy digit run: the `while let`/`while` loops of `number` and
`float`, pushing each consumed digit onto `content`; structural on the
remaining scalar values (always equal to `s.rest`). -/
def digitRunGo (p : Char → Bool) : List Char → List Char → LexState →
    List Char × LexState
  | [], content, s => (content, s)
  | c :: cs, content, s =>
    if p c then digitRunGo p cs (content ++ [c]) (consume s)
    else (content, s)

/-- A greedy digit run entered on the scanner state. -/
def digitRun (p : Char → Bool) (content : List Char) (s : LexState) :
    List Char × LexState :=
  digitRunGo p s.rest content s

/-- Rust `number`: scan the remainder of an integer literal, starting from
the seed `lit`.  The three radix-prefixed branches first consume the prefix
letter still sitting in the lookahead; the default (decimal) branch consumes
nothing before its digit run. -/
def number (lit : String) (s : LexState) : String × LexState :=
  if lit = "0b" then
    let r := digitRun (fun c => '0' ≤ c && c ≤ '1') lit.toList (consume s)
    (String.mk r.1, r.2)
  else if lit = "0o" then
    let r := digitRun (fun c => '0' ≤ c && c ≤ '7') lit.toList (consume s)
    (String.mk r.1, r.2)
  else if lit = "0x" then
    let r := digitRun isAsciiHexDigit lit.toList (consume s)
    (String.mk r.1, r.2)
  else
    let r := digitRun Char.isDigit lit.toList s
    (String.mk r.1, r.2)

/-- Rust `float`: consume the decimal point sitting in the lookahead, then a
run of decimal digits appended to the seed `lit`. -/
def float (lit : String) (s : LexState) : String × LexState :=
  let r := digitRun Char.isDigit lit.toList (consume s)
  (String.mk r.1, r.2)

/-- The characters that may start an operator (`op_first`). -/
def opFirst : List Char :=
  ['+', '-', '*', '/', '%', '^', '|', '>', '<', '&', '!', '=', ',', ';', '.', ':']

/-- The fixed operator table (`operators`). -/
def operatorTable : List String :=
  ["+", "-", "*", "/", "%", "^", "|", ">>", "<<", "&", "!",
   "+=", "-=", "*=", "/=", "%=", "^=", "|=", ">>=", "<<=", "&=",
   ">", "<", "||", "&&", "==", "!=", ">=", "<=",
   ",", ";", ".", "->", "::"]

/-- The keyword set (`keywords`). -/
def keywordTable : List String :=
  ["let", "func", "if", "else", "while", "for", "return"]

/-- The operator loop of `next_token`: grow the operator while appending the
lookahead still yields a table entry; structural on the remaining scalar
values (always equal to `s.rest`).  At an exhausted cursor the lookahead is
`'\0'` and no table entry contains `'\0'`, so the loop stops; the `next` in
the body is therefore always guarded. -/
def opLoopGo : List Char → List Char → LexState → List Char × LexState
  | [], op, s => (op, s)
  | c :: cs, op, s =>
    if operatorTable.contains (String.mk (op ++ [c])) then
      opLoopGo cs (op ++ [c]) (consume s)
    else (op, s)

/-- The operator loop entered on the scanner state. -/
def opLoop (op : List Char) (s : LexState) : List Char × LexState :=
  opLoopGo s.rest op s

/-- The dispatch of `next_token` on the first consumed scalar value, in the
arm order of the `match` in `scanner.rs`; `recur` stands for the re-entry
`self.next_token()` of the skip arms (whitespace, line comment, block
comment).  A `none` result models a panic of the underlying
`Iterator::next` (`c.unwrap()` on an exhausted cursor). -/
def tokenDispatch (recur : LexState → Option (Token × LexState))
    (first : Char) (s : LexState) : Option (Token × LexState) :=
  if first = '\x00' then some (mkToken (consume s) .Eof (""), consume s)
  else if rustIsWhitespace first then
    recur (eatUntil (fun c => !(rustIsWhitespace c)) (consume s))
  else if first = '/' ∧ lookahead (consume s) = '/' then
    recur (eatUntil (fun c => c = '\n') (consume (consume s)))
  else if first = '/' ∧ lookahead (consume s) = '*' then
    match rnext (consume (consume s)) with
    | none => none
    | some (_, s3) =>
      if eof (blockSkip s3) then recur (blockSkip s3)
      else
        match rnext (consume (blockSkip s3)) with
        | none => none
        | some (_, s6) => recur s6
  else if first = '\'' then
    let r := strBody '\'' [] (consume s)
    let s3 := if eof r.2 then r.2 else consume r.2
    match unescape r.1 with
    | .error e => some (mkToken s3 .Error (errMsg e), s3)
    | .ok t =>
      some (⟨.CharLiteral, String.mk t, (consume s).line, (consume s).column⟩, s3)
  else if first = '"' then
    let r := strBody '"' [] (consume s)
    let s3 := if eof r.2 then r.2 else consume r.2
    match unescape r.1 with
    | .error e => some (mkToken s3 .Error (errMsg e), s3)
    | .ok t =>
      some (⟨.StringLiteral, String.mk t, (consume s).line, (consume s).column⟩, s3)
  else if isXidStart first then
    let r := idLoop [first] (consume s)
    let ids := String.mk r.1
    if keywordTable.contains ids then some (mkToken r.2 .Keyword ids, r.2)
    else if ids = "true" ∨ ids = "false" then
      some (mkToken r.2 .BoolLiteral ids, r.2)
    else some (mkToken r.2 .Id ids, r.2)
  else if first.isDigit then
    if first = '0' then
      if lookahead (consume s) = 'b' then
        let r := number ("0b") (consume s)
        some (mkToken r.2 .IntLiteral r.1, r.2)
      else if lookahead (consume s) = 'o' then
        let r := number ("0o") (consume s)
        some (mkToken r.2 .IntLiteral r.1, r.2)
      else if lookahead (consume s) = 'x' then
        let r := number ("0x") (consume s)
        some (mkToken r.2 .IntLiteral r.1, r.2)
      else if lookahead (consume s) = '.' then
        let r := float ("0.") (consume s)
        some (mkToken r.2 .FloatLiteral r.1, r.2)
      else if (lookahead (consume s)).isDigit then
        let r := number (String.mk ['0', lookahead (consume s)]) (consume s)
        some (mkToken r.2 .IntLiteral r.1, r.2)
      else some (mkToken (consume s) .Error ("Invalid number literal suffix"), consume s)
    else
      if lookahead (consume s) = '.' then
        let r := float (String.mk [first]) (consume s)
        some (mkToken r.2 .FloatLiteral r.1, r.2)
      else
        let r := number (String.mk [first]) (consume s)
        some (mkToken r.2 .IntLiteral r.1, r.2)
  else if first ∈ opFirst then
    let r := opLoop [first] (consume s)
    some (mkToken r.2 .Op (String.mk r.1), r.2)
  else if first = '(' then some (mkToken (consume s) .LParen ("("), consume s)
  else if first = ')' then some (mkToken (consume s) .RParen (")"), consume s)
  else if first = '[' then some (mkToken (consume s) .LBracket ("["), consume s)
  else if first = ']' then some (mkToken (consume s) .RBracket ("]"), consume s)
  else if first = '\x7b' then some (mkToken (consume s) .LBrace ("\x7b"), consume s)
  else if first = '\x7d' then some (mkToken (consume s) .RBrace ("\x7d"), consume s)
  else some (mkToken (consume s) .Error ("Invalid character"), consume s)

/-- Rust `next_token`: produce the next token.  The eof check and the
dispatch on the first consumed scalar value, exactly as `scanner.rs`; the
skip arms re-enter token production as the source does via
`self.next_token()`.  Each re-entry happens after consuming at least one
scalar value, so a fuel of one more than the cursor length always suffices;
the fuel-exhausted arm is unreachable from `nextToken` (see
`nextTokenGo_fuel_adequate`). -/
def nextTokenGo : Nat → LexState → Option (Token × LexState)
  | 0, _ => none
  | fuel + 1, s =>
    match s.rest with
    | [] => some (mkToken s .Eof (""), s)
    | first :: _ => tokenDispatch (nextTokenGo fuel) first s

/-- Rust `next_token`, entered with sufficient fuel for every restart. -/
def nextToken (s : LexState) : Option (Token × LexState) :=
  nextTokenGo (s.rest.length + 1) s

/-! ## Helper lemmas -/

theorem consume_rest {s : LexState} {c : Char} {cs : List Char}
    (h : s.rest = c :: cs) : (consume s).rest = cs := by
  simp only [consume, h]
  split <;> rfl

theorem consume_of_not_newline {s : LexState} {c : Char} {cs : List Char}
    (h : s.rest = c :: cs) (hn : c ≠ '\n') :
    consume s = ⟨cs, s.line, s.column + 1, c⟩ := by
  simp only [consume, h]
  rw [if_neg hn]

/-- When the closing quote never occurs, the accumulation loop consumes the
whole remaining input and returns it as the content. -/
theorem strBodyGo_consumes_all (q : Char) :
    ∀ (cs content : List Char) (s : LexState), s.rest = cs → q ∉ cs →
      (strBodyGo q cs content s).1 = content ++ cs ∧
      (strBodyGo q cs content s).2.rest = [] := by
  intro cs
  induction cs with
  | nil =>
    intro content s h hq
    simp [strBodyGo, h]
  | cons c cs ih =>
    intro content s h hq
    have hcq : c ≠ q := fun e => hq (by simp [e])
    have hrest : (consume s).rest = cs := consume_rest h
    obtain ⟨i1, i2⟩ :=
      ih (content ++ [c]) (consume s) hrest (fun m => hq (List.mem_cons_of_mem _ m))
    rw [strBodyGo, if_pos hcq]
    exact ⟨by rw [i1]; simp, i2⟩

/-- Position bookkeeping of the accumulation loop on a newline-free body:
the line is unchanged and the column advances once per consumed value. -/
theorem strBodyGo_positions (q : Char) :
    ∀ (cs content : List Char) (s : LexState), s.rest = cs → q ∉ cs →
      '\n' ∉ cs →
      (strBodyGo q cs content s).2.line = s.line ∧
      (strBodyGo q cs content s).2.column = s.column + cs.length := by
  intro cs
  induction cs with
  | nil =>
    intro content s h hq hn
    simp [strBodyGo]
  | cons c cs ih =>
    intro content s h hq hn
    have hcq : c ≠ q := fun e => hq (by simp [e])
    have hcn : c ≠ '\n' := fun e => hn (by simp [e])
    have hcons := consume_of_not_newline h hcn
    have hrest : (consume s).rest = cs := by rw [hcons]
    obtain ⟨i1, i2⟩ :=
      ih (content ++ [c]) (consume s) hrest
        (fun m => hq (List.mem_cons_of_mem _ m))
        (fun m => hn (List.mem_cons_of_mem _ m))
    rw [strBodyGo, if_pos hcq]
    constructor
    · rw [i1, hcons]
    · rw [i2, hcons]
      simp
      omega

/-- Unfolding of `next_token` at a double quote: the scanner enters the
string-literal arm. -/
theorem nextToken_dquote {s : LexState} {cs : List Char}
    (h : s.rest = '"' :: cs) :
    nextToken s =
      (let r := strBody '"' [] (consume s)
       let s3 := if eof r.2 then r.2 else consume r.2
       match unescape r.1 with
       | .error e => some (mkToken s3 .Error (errMsg e), s3)
       | .ok t => some (⟨.StringLiteral, String.mk t,
           (consume s).line, (consume s).column⟩, s3)) := by
  unfold nextToken
  rw [h]
  simp only [List.length_cons]
  rw [nextTokenGo]
  rw [h]
  simp +decide [tokenDispatch]

/-- Unfolding of `next_token` at a single quote: the scanner enters the
char-literal arm. -/
theorem nextToken_squote {s : LexState} {cs : List Char}
    (h : s.rest = '\'' :: cs) :
    nextToken s =
      (let r := strBody '\'' [] (consume s)
       let s3 := if eof r.2 then r.2 else consume r.2
       match unescape r.1 with
       | .error e => some (mkToken s3 .Error (errMsg e), s3)
       | .ok t => some (⟨.CharLiteral, String.mk t,
           (consume s).line, (consume s).column⟩, s3)) := by
  unfold nextToken
  rw [h]
  simp only [List.length_cons]
  rw [nextTokenGo]
  rw [h]
  simp +decide [tokenDispatch]

/-- Shape of a dispatch result: a panic, a re-entry into token production,
a token stamped by `make_token` with the position of the returned state, or
a successful quoted-literal token. -/
theorem tokenDispatch_shape (recur : LexState → Option (Token × LexState))
    (first : Char) (s : LexState) :
    (∃ t, tokenDispatch recur first s = recur t) ∨
    tokenDispatch recur first s = none ∨
    (∃ X k txt, tokenDispatch recur first s = some (mkToken X k txt, X)) ∨
    (∃ tok X, tokenDispatch recur first s = some (tok, X) ∧
      (tok.ty = .StringLiteral ∨ tok.ty = .CharLiteral)) := by
  simp only [tokenDispatch]
  by_cases h1 : first = '\x00'
  · simp only [if_pos h1]
    exact Or.inr (Or.inr (Or.inl ⟨consume s, .Eof, "", rfl⟩))
  · simp only [if_neg h1]
    by_cases h2 : rustIsWhitespace first = true
    · simp only [if_pos h2]
      exact Or.inl ⟨_, rfl⟩
    · simp only [if_neg h2]
      by_cases h3 : first = '/' ∧ lookahead (consume s) = '/'
      · simp only [if_pos h3]
        exact Or.inl ⟨_, rfl⟩
      · simp only [if_neg h3]
        by_cases h4 : first = '/' ∧ lookahead (consume s) = '*'
        · simp only [if_pos h4]
          cases hrn : rnext (consume (consume s)) with
          | none => exact Or.inr (Or.inl rfl)
          | some pr =>
            obtain ⟨c3, s3⟩ := pr
            by_cases heof : eof (blockSkip s3) = true
            · simp only [if_pos heof]
              exact Or.inl ⟨_, rfl⟩
            · simp only [if_neg heof]
              cases hrn2 : rnext (consume (blockSkip s3)) with
              | none => exact Or.inr (Or.inl rfl)
              | some pr2 =>
                obtain ⟨c6, s6⟩ := pr2
                exact Or.inl ⟨s6, rfl⟩
        · simp only [if_neg h4]
          by_cases h5 : first = '\''
          · simp only [if_pos h5]
            cases hu : unescape (strBody '\'' [] (consume s)).1 with
            | error e =>
              exact Or.inr (Or.inr (Or.inl ⟨_, .Error, errMsg e, rfl⟩))
            | ok t =>
              exact Or.inr (Or.inr (Or.inr ⟨_, _, rfl, Or.inr rfl⟩))
          · simp only [if_neg h5]
            by_cases h6 : first = '"'
            · simp only [if_pos h6]
              cases hu : unescape (strBody '"' [] (consume s)).1 with
              | error e =>
                exact Or.inr (Or.inr (Or.inl ⟨_, .Error, errMsg e, rfl⟩))
              | ok t =>
                exact Or.inr (Or.inr (Or.inr ⟨_, _, rfl, Or.inl rfl⟩))
            · simp only [if_neg h6]
              by_cases h7 : isXidStart first = true
              · simp only [if_pos h7]
                by_cases h8 : keywordTable.contains
                    (String.mk (idLoop [first] (consume s)).1) = true
                · simp only [if_pos h8]
                  exact Or.inr (Or.inr (Or.inl ⟨_, .Keyword, _, rfl⟩))
                · simp only [if_neg h8]
                  by_cases h9 : String.mk (idLoop [first] (consume s)).1 = "true" ∨
                      String.mk (idLoop [first] (consume s)).1 = "false"
                  · simp only [if_pos h9]
                    exact Or.inr (Or.inr (Or.inl ⟨_, .BoolLiteral, _, rfl⟩))
                  · simp only [if_neg h9]
                    exact Or.inr (Or.inr (Or.inl ⟨_, .Id, _, rfl⟩))
              · simp only [if_neg h7]
                by_cases h10 : first.isDigit = true
                · simp only [if_pos h10]
                  by_cases h11 : first = '0'
                  · simp only [if_pos h11]
                    by_cases h12 : lookahead (consume s) = 'b'
                    · simp only [if_pos h12]
                      exact Or.inr (Or.inr (Or.inl ⟨_, .IntLiteral, _, rfl⟩))
                    · simp only [if_neg h12]
                      by_cases h13 : lookahead (consume s) = 'o'
                      · simp only [if_pos h13]
                        exact Or.inr (Or.inr (Or.inl ⟨_, .IntLiteral, _, rfl⟩))
                      · simp only [if_neg h13]
                        by_cases h14 : lookahead (consume s) = 'x'
                        · simp only [if_pos h14]
                          exact Or.inr (Or.inr (Or.inl ⟨_, .IntLiteral, _, rfl⟩))
                        · simp only [if_neg h14]
                          by_cases h15 : lookahead (consume s) = '.'
                          · simp only [if_pos h15]
                            exact Or.inr (Or.inr (Or.inl ⟨_, .FloatLiteral, _, rfl⟩))
                          · simp only [if_neg h15]
                            by_cases h16 : (lookahead (consume s)).isDigit = true
                            · simp only [if_pos h16]
                              exact Or.inr (Or.inr (Or.inl ⟨_, .IntLiteral, _, rfl⟩))
                            · simp only [if_neg h16]
                              exact Or.inr (Or.inr (Or.inl ⟨_, .Error, _, rfl⟩))
                  · simp only [if_neg h11]
                    by_cases h17 : lookahead (consume s) = '.'
                    · simp only [if_pos h17]
                      exact Or.inr (Or.inr (Or.inl ⟨_, .FloatLiteral, _, rfl⟩))
                    · simp only [if_neg h17]
                      exact Or.inr (Or.inr (Or.inl ⟨_, .IntLiteral, _, rfl⟩))
                · simp only [if_neg h10]
                  by_cases h18 : first ∈ opFirst
                  · simp only [if_pos h18]
                    exact Or.inr (Or.inr (Or.inl ⟨_, .Op, _, rfl⟩))
                  · simp only [if_neg h18]
                    by_cases h19 : first = '('
                    · simp only [if_pos h19]
                      exact Or.inr (Or.inr (Or.inl ⟨_, .LParen, _, rfl⟩))
                    · simp only [if_neg h19]
                      by_cases h20 : first = ')'
                      · simp only [if_pos h20]
                        exact Or.inr (Or.inr (Or.inl ⟨_, .RParen, _, rfl⟩))
                      · simp only [if_neg h20]
                        by_cases h21 : first = '['
                        · simp only [if_pos h21]
                          exact Or.inr (Or.inr (Or.inl ⟨_, .LBracket, _, rfl⟩))
                        · simp only [if_neg h21]
                          by_cases h22 : first = ']'
                          · simp only [if_pos h22]
                            exact Or.inr (Or.inr (Or.inl ⟨_, .RBracket, _, rfl⟩))
                          · simp only [if_neg h22]
                            by_cases h23 : first = '\x7b'
                            · simp only [if_pos h23]
                              exact Or.inr (Or.inr (Or.inl ⟨_, .LBrace, _, rfl⟩))
                            · simp only [if_neg h23]
                              by_cases h24 : first = '\x7d'
                              · simp only [if_pos h24]
                                exact Or.inr (Or.inr (Or.inl ⟨_, .RBrace, _, rfl⟩))
                              · simp only [if_neg h24]
                                exact Or.inr (Or.inr (Or.inl ⟨_, .Error, _, rfl⟩))

/-- Every token whose kind is not a successful quoted-literal kind is
stamped with the line and column of the scanner state returned with it:
`make_token` always reads the position of exactly that state, and the skip
arms only pass results through. -/
theorem nextTokenGo_stamp :
    ∀ (fuel : Nat) (s : LexState) (tok : Token) (s' : LexState),
      nextTokenGo fuel s = some (tok, s') →
      tok.ty ≠ .StringLiteral → tok.ty ≠ .CharLiteral →
      tok.line = s'.line ∧ tok.column = s'.column := by
  intro fuel
  induction fuel with
  | zero =>
    intro s tok s' h _ _
    simp [nextTokenGo] at h
  | succ fuel ih =>
    intro s tok s' h hty1 hty2
    rw [nextTokenGo] at h
    cases hs : s.rest with
    | nil =>
      rw [hs] at h
      cases h
      exact ⟨rfl, rfl⟩
    | cons first tail =>
      rw [hs] at h
      have h' : tokenDispatch (nextTokenGo fuel) first s = some (tok, s') := h
      rcases tokenDispatch_shape (nextTokenGo fuel) first s with
        ⟨t1, heq⟩ | heq | ⟨X, k, txt, heq⟩ | ⟨tokL, X, heq, hty⟩
      · rw [heq] at h'
        exact ih t1 tok s' h' hty1 hty2
      · rw [heq] at h'
        cases h'
      · rw [heq] at h'
        cases h'
        exact ⟨rfl, rfl⟩
      · rw [heq] at h'
        cases h'
        rcases hty with hty | hty
        · exact absurd hty hty1
        · exact absurd hty hty2

/-! ## Claim theorems -/

/-- C1 (code_bug evidence).  The claim states that `next_token` always
returns normally with a `Token` and never panics.  On the input `/**/` the
block-comment arm runs `self.next()` twice after the terminator check even
though only the final `/` remains, and the second call executes
`c.unwrap()` on `None` inside `Iterator::next` — a panic, modelled as
`none`. -/
theorem nextToken_panics_on_comment_ending_input :
    nextToken (initLex ['/', '*', '*', '/']) = none := by
  decide

/-- C2 (code_bug evidence).  The claim states that after skipping a block
comment the scanner restarts at the character immediately after `*/`, so
`/**/x` should produce the identifier `x`.  Instead the block-comment arm
consumes one scalar value past the `*/`, swallowing `x`, and the restart
finds the cursor exhausted, producing `Eof` rather than an `Id` token. -/
theorem nextToken_comment_swallows_following_char :
    nextToken (initLex ['/', '*', '*', '/', 'x']) =
      some (⟨.Eof, "", 1, 5⟩, ⟨[], 1, 5, 'x'⟩) := by
  decide

/-- C3 (code_bug evidence).  The claim (and the specification's own test
table) states that `3.14` yields a `FloatLiteral` with text `"3.14"`.  The
`float` helper consumes the decimal point with `self.next()` but never
pushes it onto the accumulated text, so the token text is `"314"`. -/
theorem nextToken_float_drops_decimal_point :
    nextToken (initLex ['3', '.', '1', '4']) =
      some (⟨.FloatLiteral, "314", 1, 4⟩, ⟨[], 1, 4, '4'⟩) := by
  decide

/-- C4 (code_bug evidence).  The claim (and the specification's own test
table) states that `07` yields an `IntLiteral` with text `"07"`, each source
digit appearing exactly once.  The `0n` seed branch forms the seed from the
lookahead digit without consuming it, so the digit run consumes `7` again
and the token text is `"077"`. -/
theorem nextToken_leading_zero_duplicates_digit :
    nextToken (initLex ['0', '7']) =
      some (⟨.IntLiteral, "077", 1, 2⟩, ⟨[], 1, 2, '7'⟩) := by
  decide

/-- C5 (counterexample).  The claim states that every token carries the
position of its first consumed character and, in particular, that an
`Error` token produced by a failed literal decode carries the literal's
start position.  For the input `"\q` the literal starts at column 1 (the
opening quote), but the emitted `Error` token is stamped via `make_token`
with the position reached after the whole literal was consumed, column 3. -/
theorem nextToken_error_token_carries_end_position :
    nextToken (initLex ['"', '\\', 'q']) =
        some (⟨.Error, "Illegal escape sequence", 1, 3⟩, ⟨[], 1, 3, 'q'⟩) ∧
      nextToken (initLex ['"', '\\', 'q']) ≠
        some (⟨.Error, "Illegal escape sequence", 1, 1⟩, ⟨[], 1, 3, 'q'⟩) := by
  constructor
  · decide
  · decide

/-- C5 (amended).  Every token returned with result state `s2` whose kind is
not `StringLiteral` or `CharLiteral` is stamped by `make_token` with the line
and column of `s2` itself, the position after the token's last consumed
scalar value; this holds for all inputs, so it covers identifiers, keywords,
bool/int/float literals, operators, punctuation, `Eof`, and every `Error`
token, including those from failed literal decodes.  A `StringLiteral` or
`CharLiteral` token produced by a dispatch on its opening quote instead
carries the saved start position of the literal: the line and column reached
immediately after consuming the opening quote. -/
theorem literal_token_position_stamp :
    (∀ (s : LexState) (cs : List Char) (tok : Token) (s2 : LexState),
        s.rest = '"' :: cs → nextToken s = some (tok, s2) →
        tok.ty = .StringLiteral →
        tok.line = (consume s).line ∧ tok.column = (consume s).column) ∧
    (∀ (s : LexState) (cs : List Char) (tok : Token) (s2 : LexState),
        s.rest = '\'' :: cs → nextToken s = some (tok, s2) →
        tok.ty = .CharLiteral →
        tok.line = (consume s).line ∧ tok.column = (consume s).column) ∧
    (∀ (s : LexState) (tok : Token) (s2 : LexState),
        nextToken s = some (tok, s2) →
        tok.ty ≠ .StringLiteral → tok.ty ≠ .CharLiteral →
        tok.line = s2.line ∧ tok.column = s2.column) := by
  refine ⟨?_, ?_, ?_⟩
  · intro s cs tok s2 h hnt hty
    rw [nextToken_dquote h] at hnt
    cases hu : unescape (strBody '"' [] (consume s)).1 with
    | error e =>
      simp only [hu] at hnt
      cases hnt
      simp [mkToken] at hty
    | ok t =>
      simp only [hu] at hnt
      cases hnt
      exact ⟨rfl, rfl⟩
  · intro s cs tok s2 h hnt hty
    rw [nextToken_squote h] at hnt
    cases hu : unescape (strBody '\'' [] (consume s)).1 with
    | error e =>
      simp only [hu] at hnt
      cases hnt
      simp [mkToken] at hty
    | ok t =>
      simp only [hu] at hnt
      cases hnt
      exact ⟨rfl, rfl⟩
  · intro s tok s2 hnt hty1 hty2
    exact nextTokenGo_stamp (s.rest.length + 1) s tok s2 hnt hty1 hty2

/-- Witness for the amended C5: the success side at the string literal
`"ab` and the char literal `'a` (both stamped with the start position,
column 1), and the general side at the failed decode `"\q`, whose `Error`
token is stamped with the position of the returned state, column 3. -/
theorem literal_token_position_stamp_witness :
    ((⟨.StringLiteral, "ab", 1, 1⟩ : Token).line =
        (consume (initLex ['"', 'a', 'b'])).line ∧
      (⟨.StringLiteral, "ab", 1, 1⟩ : Token).column =
        (consume (initLex ['"', 'a', 'b'])).column) ∧
    ((⟨.CharLiteral, "a", 1, 1⟩ : Token).line =
        (consume (initLex ['\'', 'a'])).line ∧
      (⟨.CharLiteral, "a", 1, 1⟩ : Token).column =
        (consume (initLex ['\'', 'a'])).column) ∧
    ((⟨.Error, "Illegal escape sequence", 1, 3⟩ : Token).line =
        (⟨[], 1, 3, 'q'⟩ : LexState).line ∧
      (⟨.Error, "Illegal escape sequence", 1, 3⟩ : Token).column =
        (⟨[], 1, 3, 'q'⟩ : LexState).column) := by
  refine ⟨?_, ?_, ?_⟩
  · exact literal_token_position_stamp.1 (initLex ['"', 'a', 'b']) ['a', 'b']
      ⟨.StringLiteral, "ab", 1, 1⟩ ⟨[], 1, 3, 'b'⟩ rfl (by decide) rfl
  · exact literal_token_position_stamp.2.1 (initLex ['\'', 'a']) ['a']
      ⟨.CharLiteral, "a", 1, 1⟩ ⟨[], 1, 2, 'a'⟩ rfl (by decide) rfl
  · exact literal_token_position_stamp.2.2 (initLex ['"', '\\', 'q'])
      ⟨.Error, "Illegal escape sequence", 1, 3⟩ ⟨[], 1, 3, 'q'⟩
      (by decide) (by decide) (by decide)

/-- C6 (counterexample).  The claim states that `next_token` returns `Eof`
only when the cursor is exhausted.  A NUL scalar value in the input also
produces an `Eof` token: on input `NUL x` the cursor still holds `x`, yet
the returned token is `Eof`. -/
theorem nextToken_eof_on_nul_with_input_remaining :
    (initLex ['\x00', 'x']).rest ≠ [] ∧
      nextToken (initLex ['\x00', 'x']) =
        some (⟨.Eof, "", 1, 1⟩, ⟨['x'], 1, 1, '\x00'⟩) := by
  constructor
  · decide
  · decide

/-- C6 (amended, confirmed part).  Whenever the cursor is exhausted,
`next_token` returns an `Eof` token with empty text; the converse of the
claimed equivalence is refuted separately by the NUL counterexample. -/
theorem nextToken_eof_kind_when_exhausted (s : LexState)
    (h : eof s = true) :
    (nextToken s).map (fun p => (p.1.ty, p.1.text)) = some (.Eof, "") := by
  obtain ⟨rest, line, column, current⟩ := s
  simp only [eof, List.isEmpty_iff] at h
  subst h
  simp [nextToken, nextTokenGo, mkToken]

/-- Witness for the amended C6 at the empty input. -/
theorem nextToken_eof_kind_when_exhausted_witness :
    (nextToken (initLex [])).map (fun p => (p.1.ty, p.1.text)) =
      some (.Eof, "") :=
  nextToken_eof_kind_when_exhausted (initLex []) rfl

/-- C10 (confirmed).  On an exhausted cursor `next_token` immediately
returns an `Eof` token with empty text, stamped with the current position,
and leaves the scanner state (remaining text, line, column, even the
`current` cache) unchanged — so repeated calls after the first `Eof` are
safe and keep returning `Eof`. -/
theorem nextToken_at_eof_returns_eof_and_preserves_state (s : LexState)
    (h : s.rest = []) :
    nextToken s = some (⟨.Eof, "", s.line, s.column⟩, s) := by
  obtain ⟨rest, line, column, current⟩ := s
  simp only at h
  subst h
  simp [nextToken, nextTokenGo, mkToken]

/-- Witness for C10 at the empty input. -/
theorem nextToken_at_eof_returns_eof_and_preserves_state_witness :
    nextToken (initLex []) = some (⟨.Eof, "", 1, 0⟩, initLex []) :=
  nextToken_at_eof_returns_eof_and_preserves_state (initLex []) rfl

/-- C8 (confirmed).  A quoted literal whose closing quote is missing at end
of input is accepted: the accumulated body is treated as the full content
and, when it decodes successfully, the scanner yields a normal
`StringLiteral` (resp. `CharLiteral`) token carrying the decoded text, not
an `Error` token. -/
theorem unterminated_literal_accepts_content :
    (∀ (cs t : List Char) (s : LexState), '"' ∉ cs → s.rest = '"' :: cs →
        unescape cs = .ok t →
        (nextToken s).map (fun p => (p.1.ty, p.1.text)) =
          some (.StringLiteral, String.mk t)) ∧
    (∀ (cs t : List Char) (s : LexState), '\'' ∉ cs → s.rest = '\'' :: cs →
        unescape cs = .ok t →
        (nextToken s).map (fun p => (p.1.ty, p.1.text)) =
          some (.CharLiteral, String.mk t)) := by
  constructor
  · intro cs t s hq h hu
    have hrest : (consume s).rest = cs := consume_rest h
    obtain ⟨h1, h2⟩ := strBodyGo_consumes_all '"' cs [] (consume s) hrest hq
    rw [nextToken_dquote h]
    simp only [strBody, hrest] at h1 h2 ⊢
    simp only [h1, List.nil_append] at hu ⊢
    simp [eof, h2, hu]
  · intro cs t s hq h hu
    have hrest : (consume s).rest = cs := consume_rest h
    obtain ⟨h1, h2⟩ := strBodyGo_consumes_all '\'' cs [] (consume s) hrest hq
    rw [nextToken_squote h]
    simp only [strBody, hrest] at h1 h2 ⊢
    simp only [h1, List.nil_append] at hu ⊢
    simp [eof, h2, hu]

/-- Witness for C8: the unterminated string literal `"abc` yields
`StringLiteral` with text `abc`, and the unterminated char literal
`'a` yields `CharLiteral` with text `a`. -/
theorem unterminated_literal_accepts_content_witness :
    ((nextToken (initLex ['"', 'a', 'b', 'c'])).map
        (fun p => (p.1.ty, p.1.text)) =
      some (.StringLiteral, String.mk ['a', 'b', 'c'])) ∧
    ((nextToken (initLex ['\'', 'a'])).map (fun p => (p.1.ty, p.1.text)) =
      some (.CharLiteral, String.mk ['a'])) := by
  constructor
  · exact unterminated_literal_accepts_content.1 ['a', 'b', 'c'] ['a', 'b', 'c']
      (initLex ['"', 'a', 'b', 'c']) (by decide) rfl (by decide)
  · exact unterminated_literal_accepts_content.2 ['a'] ['a']
      (initLex ['\'', 'a']) (by decide) rfl (by decide)

/-! ## Unicode-escape validation (C7) -/

/-- The digit loop never reports `UnclosedUnicode`; that error belongs
solely to the closing-brace lookahead before the loop. -/
theorem uLoop_ne_unclosed :
    ∀ (que : List Char) (digits value : Nat),
      uLoop digits value que ≠ .error .UnclosedUnicode := by
  intro que
  induction que with
  | nil =>
    intro d v h
    simp [uLoop] at h
  | cons x xs ih =>
    intro d v h
    rw [uLoop] at h
    by_cases h1 : d > 6
    · rw [if_pos h1] at h
      cases h
    · rw [if_neg h1] at h
      by_cases h2 : x = '\x7d'
      · rw [if_pos h2] at h
        by_cases h3 : d = 0
        · rw [if_pos h3] at h
          cases h
        · rw [if_neg h3] at h
          by_cases h4 : v > 0x10FFFF
          · rw [if_pos h4] at h
            cases h
          · rw [if_neg h4] at h
            cases hc : charFromU32 v with
            | none => rw [hc] at h; cases h
            | some ch => rw [hc] at h; cases h
      · rw [if_neg h2] at h
        by_cases h5 : isAsciiHexDigit x = true
        · rw [if_pos h5] at h
          exact ih _ _ h
        · rw [if_neg h5] at h
          cases h

/-- The `'u'` arm never reports `UnclosedUnicode` once the queue is
nonempty and holds a closing brace somewhere. -/
theorem uEscape_not_unclosed {que : List Char} (h1 : que ≠ [])
    (h2 : '\x7d' ∈ que) :
    uEscape que ≠ .error .UnclosedUnicode := by
  cases que with
  | nil => exact absurd rfl h1
  | cons b bs =>
    unfold uEscape
    have hg : ¬ ((b :: bs).isEmpty || !((b :: bs).contains '\x7d')) = true := by
      simp [h2]
    rw [if_neg hg]
    show (if b = '\x7b' then uLoop 0 0 bs
      else Except.error UnescapeError.IllegalUnicode) ≠
        Except.error UnescapeError.UnclosedUnicode
    by_cases hb : b = '\x7b'
    · rw [if_pos hb]
      exact uLoop_ne_unclosed bs 0 0
    · rw [if_neg hb]
      simp

/-- The digit loop over a run of hex digits ending at the first closing
brace: too many digits, an empty run, an overlarge value, a surrogate, or
the successfully decoded scalar value, in the source's order. -/
theorem uLoop_hex_run :
    ∀ (ds : List Char) (digits value : Nat) (rest : List Char),
      (∀ c ∈ ds, isAsciiHexDigit c) → '\x7d' ∉ ds →
      uLoop digits value (ds ++ '\x7d' :: rest) =
        if 7 ≤ digits + ds.length then .error .TooLongUnicode
        else if digits + ds.length = 0 then .error .EmptyUnicode
        else if 0x10FFFF < hexAcc value ds then .error .ValueOutOfUnicode
        else
          match charFromU32 (hexAcc value ds) with
          | none => .error .IllegalSurrogate
          | some ch => .ok (some ch, rest) := by
  intro ds
  induction ds with
  | nil =>
    intro digits value rest hhex hmem
    simp only [List.nil_append, hexAcc, List.foldl_nil, List.length_nil,
      Nat.add_zero]
    rw [uLoop]
    by_cases h7 : digits > 6
    · rw [if_pos h7, if_pos (show 7 ≤ digits by omega)]
    · rw [if_neg h7, if_neg (show ¬ 7 ≤ digits by omega)]
      rw [if_pos (show ('\x7d' : Char) = '\x7d' from rfl)]
  | cons d ds ih =>
    intro digits value rest hhex hmem
    have hd : isAsciiHexDigit d = true := hhex d (by simp)
    have hdq : ¬ d = '\x7d' := fun e => hmem (by simp [e])
    have hlc : (d :: ds).length = ds.length + 1 := by simp
    simp only [List.cons_append]
    rw [uLoop]
    by_cases h7 : digits > 6
    · rw [if_pos h7]
      rw [if_pos (show 7 ≤ digits + (d :: ds).length by omega)]
    · rw [if_neg h7, if_neg hdq, if_pos hd]
      rw [ih (digits + 1) (((value <<< 4) % 4294967296) ||| hexDigit d) rest
        (fun c hc => hhex c (by simp [hc]))
        (fun m => hmem (by simp [m]))]
      simp only [hexAcc, List.foldl_cons, List.length_cons]
      split_ifs <;> first | rfl | omega

/-- The digit loop hitting a non-hex, non-brace character within the first
six digits reports `InvalidCharInUnicode`. -/
theorem uLoop_invalid_char :
    ∀ (ds : List Char) (digits value : Nat) (c : Char) (rest : List Char),
      (∀ x ∈ ds, isAsciiHexDigit x) → '\x7d' ∉ ds →
      digits + ds.length ≤ 6 → ¬ isAsciiHexDigit c = true → c ≠ '\x7d' →
      uLoop digits value (ds ++ c :: rest) = .error .InvalidCharInUnicode := by
  intro ds
  induction ds with
  | nil =>
    intro digits value c rest hhex hmem hlen hc hcq
    rw [List.nil_append, uLoop]
    rw [if_neg (show ¬ digits > 6 by omega), if_neg hcq, if_neg hc]
  | cons d ds ih =>
    intro digits value c rest hhex hmem hlen hc hcq
    have hd : isAsciiHexDigit d = true := hhex d (by simp)
    have hdq : ¬ d = '\x7d' := fun e => hmem (by simp [e])
    have hlc : (d :: ds).length = ds.length + 1 := by simp
    rw [List.cons_append, uLoop]
    rw [if_neg (show ¬ digits > 6 by omega), if_neg hdq, if_pos hd]
    exact ih (digits + 1) _ c rest (fun x hx => hhex x (by simp [hx]))
      (fun m => hmem (by simp [m])) (by omega) hc hcq

/-- C7 (confirmed).  The validation order of the `\u` escape: it fails
`UnclosedUnicode` exactly when the input remaining after `u` is empty or
contains no closing brace anywhere; otherwise it fails `IllegalUnicode` if
the immediate next character is not an opening brace; with the brace
present, a run of hex digits ending at the first closing brace fails, in
the source's order, `TooLongUnicode` past 6 digits, `EmptyUnicode` on zero
digits, `ValueOutOfUnicode` above `0x10FFFF`, `IllegalSurrogate` on a
non-scalar value, and otherwise decodes the accumulated scalar value; a
non-hex, non-brace character within the first six digits fails
`InvalidCharInUnicode`; and on success exactly the decoded scalar value is
appended to the output and decoding continues after the closing brace. -/
theorem uEscape_validation_order :
    (∀ que : List Char,
        (que = [] ∨ '\x7d' ∉ que) ↔ uEscape que = .error .UnclosedUnicode) ∧
    (∀ (b : Char) (rest : List Char), '\x7d' ∈ b :: rest → b ≠ '\x7b' →
        uEscape (b :: rest) = .error .IllegalUnicode) ∧
    (∀ (ds rest : List Char), (∀ c ∈ ds, isAsciiHexDigit c) → '\x7d' ∉ ds →
        uEscape ('\x7b' :: (ds ++ '\x7d' :: rest)) =
          if 7 ≤ ds.length then .error .TooLongUnicode
          else if ds.length = 0 then .error .EmptyUnicode
          else if 0x10FFFF < hexAcc 0 ds then .error .ValueOutOfUnicode
          else
            match charFromU32 (hexAcc 0 ds) with
            | none => .error .IllegalSurrogate
            | some ch => .ok (some ch, rest)) ∧
    (∀ (ds : List Char) (c : Char) (rest : List Char),
        (∀ x ∈ ds, isAsciiHexDigit x) → '\x7d' ∉ ds → ds.length ≤ 6 →
        ¬ isAsciiHexDigit c = true → c ≠ '\x7d' → '\x7d' ∈ rest →
        uEscape ('\x7b' :: (ds ++ c :: rest)) = .error .InvalidCharInUnicode) ∧
    (∀ (que rest : List Char) (och : Option Char) (res : List Char)
        (fuel : Nat), uEscape que = .ok (och, rest) →
        unescapeGo (fuel + 1) ('\\' :: 'u' :: que) res =
          unescapeGo fuel rest (res ++ och.toList)) := by
  refine ⟨?_, ?_, ?_, ?_, ?_⟩
  · intro que
    constructor
    · rintro (rfl | hmem)
      · decide
      · unfold uEscape
        rw [if_pos (show (que.isEmpty || !(que.contains '\x7d')) = true by
          simp [hmem])]
    · intro h
      by_contra hne
      push_neg at hne
      exact uEscape_not_unclosed hne.1 hne.2 h
  · intro b rest hmem hb
    unfold uEscape
    rw [if_neg (show ¬ ((b :: rest).isEmpty ||
        !((b :: rest).contains '\x7d')) = true by simp [hmem])]
    show (if b = '\x7b' then uLoop 0 0 rest
      else Except.error UnescapeError.IllegalUnicode) =
        Except.error UnescapeError.IllegalUnicode
    rw [if_neg hb]
  · intro ds rest hhex hmem
    unfold uEscape
    rw [if_neg (show ¬ (('\x7b' :: (ds ++ '\x7d' :: rest)).isEmpty ||
        !(('\x7b' :: (ds ++ '\x7d' :: rest)).contains '\x7d')) = true by
      simp)]
    show (if ('\x7b' : Char) = '\x7b' then uLoop 0 0 (ds ++ '\x7d' :: rest)
      else Except.error UnescapeError.IllegalUnicode) = _
    rw [if_pos rfl]
    rw [uLoop_hex_run ds 0 0 rest hhex hmem]
    simp only [Nat.zero_add]
  · intro ds c rest hhex hmem hlen hhexc hcq hmemr
    unfold uEscape
    rw [if_neg (show ¬ (('\x7b' :: (ds ++ c :: rest)).isEmpty ||
        !(('\x7b' :: (ds ++ c :: rest)).contains '\x7d')) = true by
      simp [hmemr])]
    show (if ('\x7b' : Char) = '\x7b' then uLoop 0 0 (ds ++ c :: rest)
      else Except.error UnescapeError.IllegalUnicode) = _
    rw [if_pos rfl]
    exact uLoop_invalid_char ds 0 0 c rest hhex hmem (by omega) hhexc hcq
  · intro que rest och res fuel h
    rw [unescapeGo]
    simp +decide [escDecode, h]

/-- Witness for C7: a missing closing brace, a missing opening brace with a
later brace, a successful four-character escape decoding to `A`, an empty
digit run, an invalid digit character, and the appending continuation. -/
theorem uEscape_validation_order_witness :
    uEscape ['4', '1'] = .error .UnclosedUnicode ∧
    uEscape ['4', '\x7d'] = .error .IllegalUnicode ∧
    uEscape ['\x7b', '4', '1', '\x7d'] = .ok (some 'A', []) ∧
    uEscape ['\x7b', '\x7d'] = .error .EmptyUnicode ∧
    uEscape ['\x7b', '4', 'g', '\x7d'] = .error .InvalidCharInUnicode ∧
    unescapeGo 1 ['\\', 'u', '\x7b', '4', '1', '\x7d'] [] =
      unescapeGo 0 [] ['A'] := by
  refine ⟨?_, ?_, ?_, ?_, ?_, ?_⟩
  · exact (uEscape_validation_order.1 ['4', '1']).mp (Or.inr (by decide))
  · exact uEscape_validation_order.2.1 '4' ['\x7d'] (by decide) (by decide)
  · rw [show (['\x7b', '4', '1', '\x7d'] : List Char) =
        '\x7b' :: (['4', '1'] ++ '\x7d' :: []) from rfl]
    rw [uEscape_validation_order.2.2.1 ['4', '1'] [] (by decide) (by decide)]
    decide
  · rw [show (['\x7b', '\x7d'] : List Char) =
        '\x7b' :: ([] ++ '\x7d' :: []) from rfl]
    rw [uEscape_validation_order.2.2.1 [] [] (by decide) (by decide)]
    decide
  · rw [show (['\x7b', '4', 'g', '\x7d'] : List Char) =
        '\x7b' :: (['4'] ++ 'g' :: ['\x7d']) from rfl]
    exact uEscape_validation_order.2.2.2.1 ['4'] 'g' ['\x7d'] (by decide)
      (by decide) (by decide) (by decide) (by decide) (by decide)
  · rw [show (['\\', 'u', '\x7b', '4', '1', '\x7d'] : List Char) =
        '\\' :: 'u' :: ['\x7b', '4', '1', '\x7d'] from rfl]
    rw [uEscape_validation_order.2.2.2.2 ['\x7b', '4', '1', '\x7d'] []
      (some 'A') [] 0 (by decide)]
    decide

/-! ## Fuel adequacy for the decoder

The fuel threaded through `unescapeGo` is an artifact of the structural
embedding.  These theorems show any fuel of at least the queue length gives
the same result, and that `unescapeAux` satisfies exactly the recurrence of
the Rust loop. -/

theorem uLoop_rest_length {digits value : Nat} {que rest : List Char}
    {o : Option Char} (h : uLoop digits value que = .ok (o, rest)) :
    rest.length ≤ que.length := by
  induction que generalizing digits value with
  | nil =>
    rw [uLoop] at h
    cases h
    exact Nat.le_refl _
  | cons x xs ih =>
    rw [uLoop] at h
    by_cases h6 : digits > 6
    · simp [h6] at h
    · simp only [h6, if_false] at h
      by_cases hx : x = '\x7d'
      · simp only [hx, if_true, if_pos rfl] at h
        by_cases h0 : digits = 0
        · simp [h0] at h
        · simp only [h0, if_false] at h
          by_cases hv : value > 0x10FFFF
          · simp [hv] at h
          · simp only [hv, if_false] at h
            cases hc : charFromU32 value with
            | none => rw [hc] at h; cases h
            | some ch =>
              rw [hc] at h
              cases h
              exact Nat.le_succ_of_le (Nat.le_refl _)
      · simp only [hx, if_false] at h
        by_cases hh : isAsciiHexDigit x = true
        · simp only [hh, if_true, if_pos rfl] at h
          exact Nat.le_succ_of_le (ih h)
        · simp [hh] at h

theorem uEscape_rest_length {que rest : List Char} {o : Option Char}
    (h : uEscape que = .ok (o, rest)) : rest.length ≤ que.length := by
  cases que with
  | nil => simp [uEscape] at h
  | cons b bs =>
    unfold uEscape at h
    by_cases hg : ((b :: bs).isEmpty || !((b :: bs).contains '\x7d')) = true
    · rw [if_pos hg] at h
      cases h
    · rw [if_neg hg] at h
      by_cases hb : b = '\x7b'
      · rw [show (match b :: bs with
            | [] => Except.error UnescapeError.UnclosedUnicode
            | b :: rest =>
              if b = '\x7b' then uLoop 0 0 rest
              else Except.error UnescapeError.IllegalUnicode) =
            (if b = '\x7b' then uLoop 0 0 bs
              else Except.error UnescapeError.IllegalUnicode) from rfl,
          if_pos hb] at h
        exact Nat.le_succ_of_le (uLoop_rest_length h)
      · rw [show (match b :: bs with
            | [] => Except.error UnescapeError.UnclosedUnicode
            | b :: rest =>
              if b = '\x7b' then uLoop 0 0 rest
              else Except.error UnescapeError.IllegalUnicode) =
            (if b = '\x7b' then uLoop 0 0 bs
              else Except.error UnescapeError.IllegalUnicode) from rfl,
          if_neg hb] at h
        cases h

theorem escDecode_rest_length {esc : Char} {rest2 out rest3 : List Char}
    (h : escDecode esc rest2 = .ok (out, rest3)) :
    rest3.length ≤ rest2.length := by
  unfold escDecode at h
  split_ifs at h with h1 h2 h3 h4 h5 h6 h7 h8
  · cases h; exact Nat.le_refl _
  · cases h; exact Nat.le_refl _
  · cases h; exact Nat.le_refl _
  · cases h; exact Nat.le_refl _
  · cases h; exact Nat.le_refl _
  · cases h; exact Nat.le_refl _
  · cases hu : uEscape rest2 with
    | error e => rw [hu] at h; cases h
    | ok pr =>
      obtain ⟨och, r3⟩ := pr
      rw [hu] at h
      cases h
      exact uEscape_rest_length hu
  · cases rest2 with
    | nil => simp at h
    | cons hc rs =>
      cases hh : hexDigitOpt hc with
      | none => simp [hh] at h
      | some hi =>
        cases rs with
        | nil => simp [hh] at h
        | cons lc rs2 =>
          cases hh2 : hexDigitOpt lc with
          | none => simp [hh, hh2] at h
          | some lo =>
            by_cases hv : hi * 16 + lo > 0x7f
            · simp [hh, hh2, hv] at h
            · simp [hh, hh2, hv] at h
              obtain ⟨h9, h10⟩ := h
              subst h10
              simp only [List.length_cons]
              omega

theorem unescapeGo_fuel_adequate :
    ∀ (k : Nat) (que : List Char) (n m : Nat) (res : List Char),
      que.length ≤ k → que.length ≤ n → que.length ≤ m →
      unescapeGo n que res = unescapeGo m que res := by
  intro k
  induction k with
  | zero =>
    intro que n m res hk hn hm
    have hq : que = [] := List.eq_nil_of_length_eq_zero (by omega)
    subst hq
    cases n <;> cases m <;> rfl
  | succ k ih =>
    intro que n m res hk hn hm
    cases que with
    | nil => cases n <;> cases m <;> rfl
    | cons c rest =>
      have hr1 : rest.length + 1 ≤ k + 1 := by simpa using hk
      have hr2 : rest.length + 1 ≤ n := by simpa using hn
      have hr3 : rest.length + 1 ≤ m := by simpa using hm
      obtain ⟨n1, rfl⟩ : ∃ n1, n = n1 + 1 := ⟨n - 1, by omega⟩
      obtain ⟨m1, rfl⟩ : ∃ m1, m = m1 + 1 := ⟨m - 1, by omega⟩
      by_cases hc : c ≠ '\\'
      · cases rest with
        | nil =>
          rw [unescapeGo.eq_3, unescapeGo.eq_3, if_pos hc, if_pos hc]
          cases n1 <;> cases m1 <;> rfl
        | cons c2 rest2 =>
          rw [unescapeGo, unescapeGo, if_pos hc, if_pos hc]
          exact ih (c2 :: rest2) n1 m1 (res ++ [c]) (by simp at hr1 ⊢; omega)
            (by simp at hr2 ⊢; omega) (by simp at hr3 ⊢; omega)
      · cases rest with
        | nil => rw [unescapeGo.eq_3, unescapeGo.eq_3, if_neg hc, if_neg hc]
        | cons esc rest2 =>
          rw [unescapeGo, unescapeGo, if_neg hc, if_neg hc]
          cases hd : escDecode esc rest2 with
          | error e => rfl
          | ok pr =>
            obtain ⟨out, rest3⟩ := pr
            have hlen3 := escDecode_rest_length hd
            show unescapeGo n1 rest3 (res ++ out) =
              unescapeGo m1 rest3 (res ++ out)
            exact ih rest3 n1 m1 (res ++ out) (by simp at hr1; omega)
              (by simp at hr2; omega) (by simp at hr3; omega)

/-- The `while let` recurrence of the Rust `unescape` loop, satisfied by the
fuel-based embedding: a plain scalar value is copied through, a lone
trailing backslash fails, and an escape dispatch appends the decoded output
and continues after it. -/
theorem unescapeAux_recurrence :
    (∀ res, unescapeAux [] res = .ok res) ∧
    (∀ c rest res, c ≠ '\\' →
        unescapeAux (c :: rest) res = unescapeAux rest (res ++ [c])) ∧
    (∀ res, unescapeAux ['\\'] res = .error .OnlyOneSlashError) ∧
    (∀ esc rest2 res, unescapeAux ('\\' :: esc :: rest2) res =
        match escDecode esc rest2 with
        | .error e => .error e
        | .ok (out, rest3) => unescapeAux rest3 (res ++ out)) := by
  refine ⟨?_, ?_, ?_, ?_⟩
  · intro res
    rfl
  · intro c rest res hc
    show unescapeGo (rest.length + 1) (c :: rest) res = unescapeAux rest (res ++ [c])
    cases rest with
    | nil =>
      rw [unescapeGo, if_pos hc]
      rfl
    | cons c2 r2 =>
      rw [unescapeGo, if_pos hc]
      rfl
  · intro res
    rfl
  · intro esc rest2 res
    show unescapeGo (rest2.length + 1 + 1) ('\\' :: esc :: rest2) res = _
    rw [unescapeGo, if_neg (show ¬ ('\\' : Char) ≠ '\\' by simp)]
    cases hd : escDecode esc rest2 with
    | error e => rfl
    | ok pr =>
      obtain ⟨out, rest3⟩ := pr
      show unescapeGo (rest2.length + 1) rest3 (res ++ out) =
        unescapeGo rest3.length rest3 (res ++ out)
      exact unescapeGo_fuel_adequate rest3.length rest3 (rest2.length + 1)
        rest3.length (res ++ out) (Nat.le_refl _)
        (Nat.le_succ_of_le (escDecode_rest_length hd)) (Nat.le_refl _)
/-! ## Fuel adequacy for the scanner

The fuel threaded through `nextTokenGo` is an artifact of the structural
embedding.  These theorems bound how much input the skip loops can leave,
show any fuel beyond the cursor length gives the same result, and derive
the self-recursion equations of the Rust skip arms. -/

theorem consume_length_le (s : LexState) :
    (consume s).rest.length ≤ s.rest.length := by
  cases hr : s.rest with
  | nil => simp [consume, hr]
  | cons a as =>
    rw [consume_rest hr]
    simp

theorem rnext_length {s : LexState} {c : Char} {s' : LexState}
    (h : rnext s = some (c, s')) : s'.rest.length + 1 = s.rest.length := by
  unfold rnext at h
  cases hr : s.rest with
  | nil => rw [hr] at h; cases h
  | cons a as =>
    rw [hr] at h
    cases h
    rw [consume_rest hr]
    simp

theorem eatUntilGo_length_le (f : Char → Bool) :
    ∀ (l : List Char) (s : LexState), s.rest = l →
      (eatUntilGo f l s).rest.length ≤ l.length := by
  intro l
  induction l with
  | nil =>
    intro s h
    simp [eatUntilGo, h]
  | cons c cs ih =>
    intro s h
    rw [eatUntilGo]
    by_cases hf : f c = true
    · rw [if_neg (by simp [hf])]
      simp [h]
    · rw [if_pos (by simp [hf])]
      exact Nat.le_succ_of_le (ih (consume s) (consume_rest h))

theorem eatUntil_length_le (f : Char → Bool) (s : LexState) :
    (eatUntil f s).rest.length ≤ s.rest.length :=
  eatUntilGo_length_le f s.rest s rfl

theorem blockSkipGo_length_le :
    ∀ (l : List Char) (s : LexState), s.rest = l →
      (blockSkipGo l s).rest.length ≤ l.length := by
  intro l
  induction l with
  | nil =>
    intro s h
    simp [blockSkipGo, h]
  | cons c cs ih =>
    intro s h
    rw [blockSkipGo]
    by_cases hc : s.current = '*' ∧ c = '/'
    · rw [if_pos hc]
      simp [h]
    · rw [if_neg hc]
      exact Nat.le_succ_of_le (ih (consume s) (consume_rest h))

theorem blockSkip_length_le (s : LexState) :
    (blockSkip s).rest.length ≤ s.rest.length :=
  blockSkipGo_length_le s.rest s rfl

/-- The dispatch only feeds the re-entry states whose cursor is strictly
shorter than the dispatched one, so any two re-entries that agree on such
states give the same token. -/
theorem tokenDispatch_congr (r1 r2 : LexState → Option (Token × LexState))
    (first : Char) (s : LexState) (rest : List Char) (h : s.rest = first :: rest)
    (hr : ∀ s' : LexState, s'.rest.length ≤ rest.length → r1 s' = r2 s') :
    tokenDispatch r1 first s = tokenDispatch r2 first s := by
  have hcr : (consume s).rest = rest := consume_rest h
  unfold tokenDispatch
  by_cases h1 : first = '\x00'
  · simp only [if_pos h1]
  · simp only [if_neg h1]
    by_cases h2 : rustIsWhitespace first = true
    · simp only [if_pos h2]
      apply hr
      have := eatUntil_length_le (fun c => !(rustIsWhitespace c)) (consume s)
      rw [hcr] at this
      exact this
    · simp only [if_neg h2]
      by_cases h3 : first = '/' ∧ lookahead (consume s) = '/'
      · simp only [if_pos h3]
        apply hr
        have ha := eatUntil_length_le (fun c => c = '\n') (consume (consume s))
        have hb := consume_length_le (consume s)
        rw [hcr] at hb
        omega
      · simp only [if_neg h3]
        by_cases h4 : first = '/' ∧ lookahead (consume s) = '*'
        · simp only [if_pos h4]
          cases hrn : rnext (consume (consume s)) with
          | none => rfl
          | some pr =>
            obtain ⟨c3, s3⟩ := pr
            have hb := consume_length_le (consume s)
            rw [hcr] at hb
            have hc3 := rnext_length hrn
            have hbs := blockSkip_length_le s3
            by_cases heof : eof (blockSkip s3) = true
            · simp only [if_pos heof]
              apply hr
              omega
            · simp only [if_neg heof]
              cases hrn2 : rnext (consume (blockSkip s3)) with
              | none => rfl
              | some pr2 =>
                obtain ⟨c6, s6⟩ := pr2
                have hc6 := rnext_length hrn2
                have hcb := consume_length_le (blockSkip s3)
                apply hr
                omega
        · simp only [if_neg h4]

theorem nextTokenGo_fuel_adequate :
    ∀ (k : Nat) (s : LexState) (n m : Nat),
      s.rest.length < n → s.rest.length < m → s.rest.length ≤ k →
      nextTokenGo n s = nextTokenGo m s := by
  intro k
  induction k with
  | zero =>
    intro s n m hn hm hk
    have hs : s.rest = [] := List.eq_nil_of_length_eq_zero (by omega)
    obtain ⟨n1, rfl⟩ : ∃ n1, n = n1 + 1 := ⟨n - 1, by omega⟩
    obtain ⟨m1, rfl⟩ : ∃ m1, m = m1 + 1 := ⟨m - 1, by omega⟩
    rw [nextTokenGo, nextTokenGo, hs]
  | succ k ih =>
    intro s n m hn hm hk
    obtain ⟨n1, rfl⟩ : ∃ n1, n = n1 + 1 := ⟨n - 1, by omega⟩
    obtain ⟨m1, rfl⟩ : ∃ m1, m = m1 + 1 := ⟨m - 1, by omega⟩
    rw [nextTokenGo, nextTokenGo]
    cases hs : s.rest with
    | nil => rfl
    | cons first rest =>
      show tokenDispatch (nextTokenGo n1) first s =
        tokenDispatch (nextTokenGo m1) first s
      have hsl : s.rest.length = rest.length + 1 := by rw [hs]; simp
      apply tokenDispatch_congr _ _ first s rest hs
      intro s' hs'
      exact ih s' n1 m1 (by omega) (by omega) (by omega)

/-- The self-recursion equations of the skip arms of the Rust
`next_token`, satisfied by the fuel-based embedding: skipping whitespace, a
line comment, or a block comment re-enters `next_token` on the state left
by the skip. -/
theorem nextToken_skip_recurrence :
    (∀ (s : LexState) (first : Char) (rest : List Char),
        s.rest = first :: rest → first ≠ '\x00' →
        rustIsWhitespace first = true →
        nextToken s =
          nextToken (eatUntil (fun c => !(rustIsWhitespace c)) (consume s))) ∧
    (∀ (s : LexState) (rest : List Char), s.rest = '/' :: rest →
        lookahead (consume s) = '/' →
        nextToken s =
          nextToken (eatUntil (fun c => c = '\n') (consume (consume s)))) ∧
    (∀ (s : LexState) (rest : List Char), s.rest = '/' :: rest →
        lookahead (consume s) = '*' →
        nextToken s =
          match rnext (consume (consume s)) with
          | none => none
          | some (_, s3) =>
            if eof (blockSkip s3) then nextToken (blockSkip s3)
            else
              match rnext (consume (blockSkip s3)) with
              | none => none
              | some (_, s6) => nextToken s6) := by
  refine ⟨?_, ?_, ?_⟩
  · intro s first rest h h0 hw
    have hcr : (consume s).rest = rest := consume_rest h
    have hsl : s.rest.length = rest.length + 1 := by rw [h]; simp
    unfold nextToken
    rw [hsl, nextTokenGo, h]
    show tokenDispatch (nextTokenGo (rest.length + 1)) first s = _
    unfold tokenDispatch
    rw [if_neg h0, if_pos hw]
    have hb := eatUntil_length_le (fun c => !(rustIsWhitespace c)) (consume s)
    rw [hcr] at hb
    exact nextTokenGo_fuel_adequate
      (eatUntil (fun c => !(rustIsWhitespace c)) (consume s)).rest.length
      (eatUntil (fun c => !(rustIsWhitespace c)) (consume s))
      (rest.length + 1) _ (by omega) (by omega) (Nat.le_refl _)
  · intro s rest h hla
    have hcr : (consume s).rest = rest := consume_rest h
    have hsl : s.rest.length = rest.length + 1 := by rw [h]; simp
    unfold nextToken
    rw [hsl, nextTokenGo, h]
    show tokenDispatch (nextTokenGo (rest.length + 1)) '/' s = _
    unfold tokenDispatch
    rw [if_neg (by decide : ¬ ('/' : Char) = '\x00')]
    rw [if_neg (by decide : ¬ rustIsWhitespace '/' = true)]
    rw [if_pos (⟨rfl, hla⟩ : ('/' : Char) = '/' ∧ lookahead (consume s) = '/')]
    have ha := eatUntil_length_le (fun c => c = '\n') (consume (consume s))
    have hb := consume_length_le (consume s)
    rw [hcr] at hb
    exact nextTokenGo_fuel_adequate
      (eatUntil (fun c => c = '\n') (consume (consume s))).rest.length
      (eatUntil (fun c => c = '\n') (consume (consume s)))
      (rest.length + 1) _ (by omega) (by omega) (Nat.le_refl _)
  · intro s rest h hla
    have hcr : (consume s).rest = rest := consume_rest h
    have hsl : s.rest.length = rest.length + 1 := by rw [h]; simp
    unfold nextToken
    rw [hsl, nextTokenGo, h]
    show tokenDispatch (nextTokenGo (rest.length + 1)) '/' s = _
    unfold tokenDispatch
    rw [if_neg (by decide : ¬ ('/' : Char) = '\x00')]
    rw [if_neg (by decide : ¬ rustIsWhitespace '/' = true)]
    rw [if_neg (show ¬ (('/' : Char) = '/' ∧ lookahead (consume s) = '/') by
      simp [hla])]
    rw [if_pos (⟨rfl, hla⟩ : ('/' : Char) = '/' ∧ lookahead (consume s) = '*')]
    cases hrn : rnext (consume (consume s)) with
    | none => rfl
    | some pr =>
      obtain ⟨c3, s3⟩ := pr
      have hb := consume_length_le (consume s)
      rw [hcr] at hb
      have hc3 := rnext_length hrn
      have hbs := blockSkip_length_le s3
      show (if eof (blockSkip s3) = true
          then nextTokenGo (rest.length + 1) (blockSkip s3)
          else match rnext (consume (blockSkip s3)) with
            | none => none
            | some (_, s6) => nextTokenGo (rest.length + 1) s6) =
        (if eof (blockSkip s3) = true
          then nextTokenGo ((blockSkip s3).rest.length + 1) (blockSkip s3)
          else match rnext (consume (blockSkip s3)) with
            | none => none
            | some (_, s6) => nextTokenGo (s6.rest.length + 1) s6)
      by_cases heof : eof (blockSkip s3) = true
      · rw [if_pos heof, if_pos heof]
        exact nextTokenGo_fuel_adequate (blockSkip s3).rest.length
          (blockSkip s3) (rest.length + 1) _ (by omega) (by omega)
          (Nat.le_refl _)
      · rw [if_neg heof, if_neg heof]
        cases hrn2 : rnext (consume (blockSkip s3)) with
        | none => rfl
        | some pr2 =>
          obtain ⟨c6, s6⟩ := pr2
          have hc6 := rnext_length hrn2
          have hcb := consume_length_le (blockSkip s3)
          show nextTokenGo (rest.length + 1) s6 =
            nextTokenGo (s6.rest.length + 1) s6
          exact nextTokenGo_fuel_adequate s6.rest.length s6
            (rest.length + 1) _ (by omega) (by omega) (Nat.le_refl _)

end Miqro
